import Mathlib

/-
Verification of the translation-store utility (src/trans.py).

The program is modelled by a shallow embedding:
- Python strings are `List Char` (`Str`); `str.strip()` is `pyStrip`,
  `str.split(sep)` is `pySplit sep`.
- A store file is a `List Str` of lines; each line is written to disk with a
  trailing newline, which the model leaves implicit (every line the program
  writes ends in a newline, and `readlines` splits on them).  An absent file
  is `none`, an existing file `some lines` (an empty file is `some []`).
- The usage-count CSV is modelled by its parsed rows `List (Str × Nat)`; the
  header line `word,count` is implicit (it is exactly the zero-row file).
- The filesystem is the record `FS` holding the four files the program can
  touch plus the existence flags of the two language directories.
-/

set_option autoImplicit false

namespace TransPy

/-- Python strings, modelled as lists of characters. -/
abbrev Str := List Char

/-- The whitespace characters removed by Python's `str.strip()`
(ASCII fragment). -/
def isPySpace (c : Char) : Bool :=
  c == ' ' || c == '\t' || c == '\n' || c == '\r' || c == '\x0b' || c == '\x0c'

/-- Remove leading whitespace (`str.lstrip()`). -/
def trimLeft : Str → Str
  | [] => []
  | c :: s => if isPySpace c then trimLeft s else c :: s

/-- Python's `str.strip()`: drop leading whitespace, then trailing whitespace. -/
def pyStrip (s : Str) : Str :=
  ((trimLeft ((trimLeft s).reverse)).reverse)

/-- Python's `str.split(sep)` for a single-character separator:
`"".split(sep) = [""]`, and separators delimit (possibly empty) segments. -/
def pySplit (sep : Char) : Str → List Str
  | [] => [[]]
  | c :: rest =>
    match pySplit sep rest with
    | [] => [[]]
    | seg :: segs => if c == sep then [] :: seg :: segs else (c :: seg) :: segs

/-- `[p.strip() for p in line.split(',')]` — parse one store line into its
whitespace-trimmed comma-separated fields. -/
def parseLine (l : Str) : List Str := (pySplit ',' l).map pyStrip

/-- The first field of a store line (the word the line records).
`pySplit` never returns `[]`, so the default is never used. -/
def firstField (l : Str) : Str := (parseLine l).headD []

/-- The separator `", "` the program uses when writing lines. -/
def commaSpace : Str := [',', ' ']

/-- `', '.join(translations)`. -/
def joinCS : List Str → Str
  | [] => []
  | [t] => t
  | t :: t2 :: rest => t ++ commaSpace ++ joinCS (t2 :: rest)

/-- `f"{word}, {', '.join(translations)}"` — the line written for a record. -/
def mkLine (word : Str) (ts : List Str) : Str := word ++ commaSpace ++ joinCS ts

-- sanity checks of the primitives on concrete data
example : pySplit ',' "a,b".data = ["a".data, "b".data] := by decide
example : pyStrip "  ho la  ".data = "ho la".data := by decide
example : parseLine "maison, house".data = ["maison".data, "house".data] := by decide
example : firstField "maison, house".data = "maison".data := by decide
example : mkLine "maison".data ["house".data, "home".data] = "maison, house, home".data := by decide

/-! ## The two kinds of files -/

/-- The parsed rows of a usage-count CSV (below its `word,count` header). -/
abbrev UsageRows := List (Str × Nat)

/-- `increment_word_usage`, as its effect on the usage file's rows.
An absent file (`none`) is first created holding just the header, i.e. zero
rows.  If some row's word matches, every matching row's count is incremented
(`df.loc[df['word'] == word, 'count'] += 1`); otherwise a row `(word, 1)` is
appended at the end (`pd.concat`). -/
def increment_word_usage (word : Str) (file : Option UsageRows) : UsageRows :=
  let df := file.getD []
  if df.any (fun r => r.1 == word) then
    df.map (fun r => if r.1 = word then (r.1, r.2 + 1) else r)
  else
    df ++ [(word, 1)]

/-- The recursion of `word_exists` over `enumerate(lines)`, carrying the index
of the first line: finds the first line whose trimmed first field equals
`word` and returns its index, raw text and whether it had no translation
fields (`len(parts) == 1`). -/
def word_exists_go (word : Str) : List Str → Nat → Option (Nat × Str × Bool)
  | [], _ => none
  | line :: rest, i =>
    let parts := parseLine line
    if parts.headD [] = word then some (i, line, parts.length == 1)
    else word_exists_go word rest (i + 1)

/-- `word_exists(word, file_path)`: `(False, None)` when the file does not
exist or no line matches, otherwise `(True, (index, line, bare))` for the
first matching line. -/
def word_exists (word : Str) (file : Option (List Str)) : Bool × Option (Nat × Str × Bool) :=
  match file with
  | none => (false, none)
  | some lines =>
    match word_exists_go word lines 0 with
    | none => (false, none)
    | some info => (true, some info)

/-- `update_translation`: rewrite the first line whose first field is `word`
and that has no translation fields as `word, t1, t2, ...`; all other lines
are written back unchanged (the loop `break`s after the first match). -/
def update_translation (word : Str) (ts : List Str) : List Str → List Str
  | [] => []
  | line :: rest =>
    let parts := parseLine line
    if parts.headD [] = word ∧ parts.length = 1 then mkLine word ts :: rest
    else line :: update_translation word ts rest

/-- The merge loop of `append_translation`: starting from the existing
translations, append each supplied translation not contained in the
*original* existing list, counting how many were appended. -/
def merge_new (existing : List Str) (ts : List Str) : List Str × Nat :=
  ts.foldl (fun acc t => if t ∈ existing then acc else (acc.1 ++ [t], acc.2 + 1))
    (existing, 0)

/-- `append_translation`: rewrite the first line whose first field is `word`
as the word followed by the merged translation list, leaving every other line
unchanged; returns the new lines and the number of newly appended
translations. -/
def append_translation (word : Str) (ts : List Str) : List Str → List Str × Nat
  | [] => ([], 0)
  | line :: rest =>
    let parts := parseLine line
    if parts.headD [] = word then
      let m := merge_new parts.tail ts
      (mkLine word m.1 :: rest, m.2)
    else
      let r := append_translation word ts rest
      (line :: r.1, r.2)

/-! ## The filesystem -/

/-- The two store files (`english/american-english_tofr.csv`,
`french/french_toen.csv`). -/
inductive SPath where
  | enfr
  | fren
deriving DecidableEq

/-- The two usage files (`english/word_increment.csv`,
`french/word_increment.csv`). -/
inductive UPath where
  | en
  | fr
deriving DecidableEq

/-- The part of the filesystem the program can touch: the four files (`none`
means the file is absent) and whether each language directory exists. -/
structure FS where
  enfrStore : Option (List Str)
  frenStore : Option (List Str)
  enUsage : Option UsageRows
  frUsage : Option UsageRows
  enDir : Bool
  frDir : Bool
deriving DecidableEq

def FS.getStore (fs : FS) : SPath → Option (List Str)
  | .enfr => fs.enfrStore
  | .fren => fs.frenStore

def FS.setStore (fs : FS) : SPath → List Str → FS
  | .enfr, s => { fs with enfrStore := some s }
  | .fren, s => { fs with frenStore := some s }

def FS.getUsage (fs : FS) : UPath → Option UsageRows
  | .en => fs.enUsage
  | .fr => fs.frUsage

def FS.setUsage (fs : FS) : UPath → UsageRows → FS
  | .en, u => { fs with enUsage := some u }
  | .fr, u => { fs with frUsage := some u }

/-- `trans_file.parent.mkdir(parents=True, exist_ok=True)`: mark the store
file's language directory as existing. -/
def FS.mkdirFor (fs : FS) : SPath → FS
  | .enfr => { fs with enDir := true }
  | .fren => { fs with frDir := true }

/-- `ensure_directories` (run by `TranslationManager.__init__`): create the
`english/` and `french/` directories if missing. -/
def ensure_directories (fs : FS) : FS :=
  { fs with enDir := true, frDir := true }

/-- `get_translation_file(from_lang, to_lang)`: the English→French store when
`from_lang == 'en'`, otherwise the French→English store (`to_lang` is
ignored by the source). -/
def get_translation_file (from_lang _to_lang : Str) : SPath :=
  if from_lang = "en".data then .enfr else .fren

/-- `get_increment_file(lang)`: the per-language usage file. -/
def get_increment_file (lang : Str) : UPath :=
  if lang = "en".data then .en else .fr

/-- `increment_word_usage` as a filesystem action: resolve the usage file for
`lang`, apply the row update, write the file back. -/
def increment_word_usage_fs (word : Str) (lang : Str) (fs : FS) : FS :=
  let p := get_increment_file lang
  fs.setUsage p (increment_word_usage word (fs.getUsage p))

/-- The outcome string `f"appended_{added_count}"`. -/
def outcomeAppended (n : Nat) : Str := "appended_".data ++ (Nat.repr n).data

/-- `add_translation(word, translations, from_lang, to_lang)`: resolve the
store, create it empty (with its directory) if absent, dispatch on
`word_exists`, and return the outcome string with the new filesystem. -/
def add_translation (word : Str) (ts : List Str) (from_lang to_lang : Str)
    (fs : FS) : Str × FS :=
  let p := get_translation_file from_lang to_lang
  -- create the file (and its parent directory) if it does not exist
  let fs := match fs.getStore p with
    | some _ => fs
    | none => (fs.mkdirFor p).setStore p []
  let store := (fs.getStore p).getD []
  match word_exists word (some store) with
  | (false, _) =>
    -- not found: append the new record, then bump the usage counter
    let fs := fs.setStore p (store ++ [mkLine word ts])
    ("added".data, increment_word_usage_fs word from_lang fs)
  | (true, some (_, _, true)) =>
    -- found without translations: rewrite that line in place
    ("updated".data, fs.setStore p (update_translation word ts store))
  | (true, _) =>
    -- found with translations: merge the new translations in
    let r := append_translation word ts store
    (outcomeAppended r.2, fs.setStore p r.1)

/-! ## The command-line surface -/

/-- The quote character used around the word in the reported messages. -/
def quoteC : Char := '\''

/-- `"Erreur: Veuillez fournir au moins une traduction"`. -/
def msg_no_translations : Str :=
  "Erreur: Veuillez fournir au moins une traduction".data

/-- The invalid-direction error message. -/
def msg_invalid_direction : Str :=
  ("Erreur: Direction invalide. Utilisez ".data ++ [quoteC] ++ "enfr".data
    ++ [quoteC] ++ " ou ".data ++ [quoteC] ++ "fren".data ++ [quoteC])

/-- `f"Traduction ajoutée pour '{word}'"`. -/
def msg_added (word : Str) : Str :=
  "Traduction ajoutée pour ".data ++ [quoteC] ++ word ++ [quoteC]

/-- `f"Traduction mise à jour pour '{word}'"`. -/
def msg_updated (word : Str) : Str :=
  "Traduction mise à jour pour ".data ++ [quoteC] ++ word ++ [quoteC]

/-- `f"{added_count} nouvelle(s) traduction(s) ajoutée(s) pour '{word}'"`,
taking the count as the digit string parsed back out of the outcome (the
source round-trips it through `int(...)`, the identity on the canonical
decimal representations the program produces). -/
def msg_appended (countStr : Str) (word : Str) : Str :=
  countStr ++ " nouvelle(s) traduction(s) ajoutée(s) pour ".data
    ++ [quoteC] ++ word ++ [quoteC]

/-- The fallback message of the final `else` branch of `trans`. -/
def msg_fallback (word : Str) : Str :=
  "Le mot ".data ++ [quoteC] ++ word ++ [quoteC]
    ++ " existe déjà avec des traductions dans la base de données".data

/-- The `if/elif/elif/else` chain of `trans` reporting the outcome of
`add_translation`. -/
def report (result : Str) (word : Str) : Str :=
  if result = "added".data then msg_added word
  else if result = "updated".data then msg_updated word
  else if result.take 9 = "appended_".data then
    msg_appended ((pySplit '_' result).tail.headD []) word
  else msg_fallback word

/-- The command-line entry point `trans(direction, word, translations)`:
returns the filesystem after the invocation and the list of echoed messages.
Note the manager (and with it `ensure_directories`) is constructed after the
empty-translations check but before direction validation. -/
def trans (direction : Str) (word : Str) (translations : List Str)
    (fs : FS) : FS × List Str :=
  if translations = [] then (fs, [msg_no_translations])
  else
    let fs := ensure_directories fs
    if direction = "enfr".data then
      let r := add_translation word translations "en".data "fr".data fs
      (r.2, [report r.1 word])
    else if direction = "fren".data then
      let r := add_translation word translations "fr".data "en".data fs
      (r.2, [report r.1 word])
    else (fs, [msg_invalid_direction])

/-! ## Specification-side notions -/

/-- A string that survives the program's own parsing: equal to its trim and
containing no comma.  Every field produced by `parseLine` is of this form. -/
def GoodField (s : Str) : Prop := pyStrip s = s ∧ ',' ∉ s

instance : DecidablePred GoodField := fun s =>
  inferInstanceAs (Decidable (pyStrip s = s ∧ ',' ∉ s))

/-- The spec's store invariant: each word is the first field of at most one
line, and no record's translation list contains a duplicate. -/
def storeInv (lines : List Str) : Prop :=
  (lines.map firstField).Nodup ∧ ∀ l ∈ lines, ((parseLine l).tail).Nodup

instance : DecidablePred storeInv := fun lines =>
  inferInstanceAs
    (Decidable ((lines.map firstField).Nodup ∧ ∀ l ∈ lines, ((parseLine l).tail).Nodup))

/-- The invariant lifted to a possibly-absent store file. -/
def fileInv : Option (List Str) → Prop
  | none => True
  | some lines => storeInv lines

instance : DecidablePred fileInv := fun f =>
  match f with
  | none => inferInstanceAs (Decidable True)
  | some lines => inferInstanceAs (Decidable (storeInv lines))

/-- The total usage count recorded for a word (sum over matching rows; the
well-formed files the program writes have at most one row per word). -/
def usageCount (word : Str) (file : Option UsageRows) : Nat :=
  (((file.getD []).filter (fun r => r.1 == word)).map (fun r => r.2)).sum

/-- The empty filesystem: no files, no directories. -/
def FS.empty : FS :=
  { enfrStore := none, frenStore := none, enUsage := none, frUsage := none,
    enDir := false, frDir := false }

-- sanity checks of the embedded operations on concrete data
example :
    (add_translation "chat".data ["cat".data] "fr".data "en".data FS.empty).1
      = "added".data := by decide
example :
    ((add_translation "chat".data ["cat".data] "fr".data "en".data FS.empty).2).frenStore
      = some ["chat, cat".data] := by decide
example :
    (add_translation "bonjour".data ["hello".data] "fr".data "en".data
      { FS.empty with frenStore := some ["bonjour".data] }).1 = "updated".data := by
  decide
example :
    (add_translation "maison".data ["house".data, "home".data] "fr".data "en".data
      { FS.empty with frenStore := some ["maison, house".data] }).1
      = "appended_1".data := by decide
example :
    ((add_translation "maison".data ["house".data, "home".data] "fr".data "en".data
      { FS.empty with frenStore := some ["maison, house".data] }).2).frenStore
      = some ["maison, house, home".data] := by decide
example :
    (trans "xx".data "w".data ["t".data] FS.empty).2 = [msg_invalid_direction] := by
  decide

/-! ## Lemmas about the string primitives -/

theorem pySplit_cons_eq (sep c : Char) (rest seg : Str) (segs : List Str)
    (h : pySplit sep rest = seg :: segs) :
    pySplit sep (c :: rest)
      = if c == sep then [] :: seg :: segs else (c :: seg) :: segs := by
  show (match pySplit sep rest with
    | [] => [[]]
    | seg :: segs => if c == sep then [] :: seg :: segs else (c :: seg) :: segs)
    = _
  rw [h]

theorem pySplit_ne_nil (sep : Char) (s : Str) : pySplit sep s ≠ [] := by
  induction s with
  | nil => simp [pySplit]
  | cons c rest ih =>
    rcases h : pySplit sep rest with _ | ⟨seg, segs⟩
    · exact absurd h ih
    · rw [pySplit_cons_eq sep c rest seg segs h]
      by_cases hc : c == sep <;> simp [hc]

theorem pySplit_no_sep (sep : Char) (s : Str) :
    ∀ p ∈ pySplit sep s, sep ∉ p := by
  induction s with
  | nil => simp [pySplit]
  | cons c rest ih =>
    rcases h : pySplit sep rest with _ | ⟨seg, segs⟩
    · exact absurd h (pySplit_ne_nil sep rest)
    · rw [h] at ih
      rw [pySplit_cons_eq sep c rest seg segs h]
      by_cases hc : c = sep
      · simp only [hc, beq_self_eq_true, if_true]
        intro p hp
        rcases List.mem_cons.mp hp with rfl | hp2
        · simp
        · exact ih p hp2
      · simp only [beq_iff_eq, hc, if_false]
        intro p hp
        rcases List.mem_cons.mp hp with rfl | hp2
        · intro hmem
          rcases List.mem_cons.mp hmem with heq | hmem2
          · exact hc heq.symm
          · exact ih seg (by simp) hmem2
        · exact ih p (by simp [hp2])

theorem pySplit_append_sep (sep : Char) (a b : Str) (ha : sep ∉ a) :
    pySplit sep (a ++ sep :: b) = a :: pySplit sep b := by
  induction a with
  | nil =>
    rcases h : pySplit sep b with _ | ⟨seg, segs⟩
    · exact absurd h (pySplit_ne_nil sep b)
    · rw [List.nil_append, pySplit_cons_eq sep sep b seg segs h]
      simp [h]
  | cons c a' ih =>
    have hc : c ≠ sep := by intro h; exact ha (h ▸ List.mem_cons_self c a')
    have ha' : sep ∉ a' := fun h => ha (List.mem_cons_of_mem c h)
    rcases h : pySplit sep (a' ++ sep :: b) with _ | ⟨seg, segs⟩
    · exact absurd h (pySplit_ne_nil sep _)
    · have heq := ih ha'
      rw [h] at heq
      rw [List.cons_append, pySplit_cons_eq sep c _ seg segs h]
      cases heq
      simp [beq_iff_eq, hc]

theorem pySplit_of_no_sep (sep : Char) (a : Str) (ha : sep ∉ a) :
    pySplit sep a = [a] := by
  induction a with
  | nil => simp [pySplit]
  | cons c a' ih =>
    have hc : c ≠ sep := by intro h; exact ha (h ▸ List.mem_cons_self c a')
    have ha' : sep ∉ a' := fun h => ha (List.mem_cons_of_mem c h)
    have h := ih ha'
    rw [pySplit_cons_eq sep c a' a' [] h]
    simp [beq_iff_eq, hc]

theorem trimLeft_suffix (s : Str) : trimLeft s <:+ s := by
  induction s with
  | nil => simp [trimLeft]
  | cons c rest ih =>
    simp only [trimLeft]
    by_cases h : isPySpace c
    · simpa [h] using ih.trans (List.suffix_cons c rest)
    · simp [h]

theorem trimLeft_head_not_space (s : Str) (c : Char) (r : Str)
    (h : trimLeft s = c :: r) : isPySpace c = false := by
  induction s with
  | nil => simp [trimLeft] at h
  | cons x rest ih =>
    simp only [trimLeft] at h
    by_cases hx : isPySpace x
    · exact ih (by simpa [hx] using h)
    · rw [if_neg hx] at h
      cases h
      simpa using hx

theorem trimLeft_of_head (s : Str)
    (h : ∀ c r, s = c :: r → isPySpace c = false) : trimLeft s = s := by
  cases s with
  | nil => rfl
  | cons c r => simp [trimLeft, h c r rfl]

theorem pyStrip_cons_space (c : Char) (s : Str) (h : isPySpace c = true) :
    pyStrip (c :: s) = pyStrip s := by
  simp [pyStrip, trimLeft, h]

theorem pyStrip_subset (s : Str) : pyStrip s ⊆ s := by
  intro x hx
  simp only [pyStrip, List.mem_reverse] at hx
  have h1 : x ∈ (trimLeft s).reverse := (trimLeft_suffix _).subset hx
  rw [List.mem_reverse] at h1
  exact (trimLeft_suffix s).subset h1

theorem pyStrip_idem (s : Str) : pyStrip (pyStrip s) = pyStrip s := by
  set u := trimLeft s with hu
  have hv : trimLeft u.reverse <:+ u.reverse := trimLeft_suffix _
  set v := trimLeft u.reverse with hvdef
  have hstrip : pyStrip s = v.reverse := rfl
  -- `v.reverse` is a prefix of `u`
  have hpre : v.reverse <+: u := by
    rcases hv with ⟨t, ht⟩
    refine ⟨t.reverse, ?_⟩
    have := congrArg List.reverse ht
    simpa [List.reverse_append] using this
  -- the head of `v.reverse` (if any) is the head of `u`, hence not a space
  have hfix1 : trimLeft v.reverse = v.reverse := by
    apply trimLeft_of_head
    intro c r hcr
    rcases hcu : u with _ | ⟨c0, r0⟩
    · rw [hcu] at hpre
      have : v.reverse = [] := List.prefix_nil.mp hpre
      rw [this] at hcr; cases hcr
    · rw [hcr, hcu] at hpre
      have hc0 : c = c0 := (List.cons_prefix_cons.mp hpre).1
      have : isPySpace c0 = false := trimLeft_head_not_space s c0 r0 (by rw [← hu, hcu])
      rw [hc0]; exact this
  -- `v` itself has a non-space head (it is a `trimLeft` output)
  have hfix2 : trimLeft v = v := by
    apply trimLeft_of_head
    intro c r hcr
    exact trimLeft_head_not_space u.reverse c r (by rw [← hvdef, hcr])
  rw [hstrip]
  show (trimLeft ((trimLeft v.reverse).reverse)).reverse = v.reverse
  rw [hfix1, List.reverse_reverse, hfix2]

/-! ## Lemmas about line parsing and serialization -/

theorem parseLine_ne_nil (l : Str) : parseLine l ≠ [] := by
  simp only [parseLine, ne_eq, List.map_eq_nil_iff]
  exact pySplit_ne_nil ',' l

theorem fields_good (l : Str) : ∀ p ∈ parseLine l, GoodField p := by
  intro p hp
  simp only [parseLine, List.mem_map] at hp
  obtain ⟨q, hq, rfl⟩ := hp
  exact ⟨pyStrip_idem q, fun hc => pySplit_no_sep ',' l q hq (pyStrip_subset q hc)⟩

theorem pyStrip_of_good (s : Str) (h : GoodField s) : pyStrip s = s := h.1

theorem pyStrip_space_cons (t : Str) (h : GoodField t) :
    pyStrip (' ' :: t) = t := by
  rw [pyStrip_cons_space ' ' t (by decide), h.1]

theorem joinCS_cons_cons (t t2 : Str) (rest : List Str) :
    joinCS (t :: t2 :: rest) = t ++ commaSpace ++ joinCS (t2 :: rest) := rfl

/-- Splitting `' ' :: joinCS ts` recovers the supplied translations, when
each is trimmed and comma-free. -/
theorem pySplit_space_join (ts : List Str) (hne : ts ≠ [])
    (hts : ∀ t ∈ ts, GoodField t) :
    (pySplit ',' (' ' :: joinCS ts)).map pyStrip = ts := by
  induction ts with
  | nil => exact absurd rfl hne
  | cons t rest ih =>
    rcases rest with _ | ⟨t2, rest'⟩
    · have hg : GoodField t := hts t (by simp)
      have hnc : ',' ∉ ' ' :: t := by
        intro hmem
        rcases List.mem_cons.mp hmem with heq | hmem2
        · exact absurd heq (by decide)
        · exact hg.2 hmem2
      rw [show joinCS [t] = t from rfl, pySplit_of_no_sep ',' (' ' :: t) hnc]
      simp [pyStrip_space_cons t hg]
    · have hg : GoodField t := hts t (by simp)
      have hrest : ∀ x ∈ t2 :: rest', GoodField x := fun x hx => hts x (by simp [hx])
      have hiheq := ih (by simp) hrest
      have hnc : ',' ∉ ' ' :: t := by
        intro hmem
        rcases List.mem_cons.mp hmem with heq | hmem2
        · exact absurd heq (by decide)
        · exact hg.2 hmem2
      rw [joinCS_cons_cons]
      have hshape : ' ' :: (t ++ commaSpace ++ joinCS (t2 :: rest'))
          = (' ' :: t) ++ ',' :: (' ' :: joinCS (t2 :: rest')) := by
        simp [commaSpace]
      rw [hshape, pySplit_append_sep ',' (' ' :: t) _ hnc]
      simp only [List.map_cons, pyStrip_space_cons t hg, hiheq]

/-- Round trip: parsing the line written for `word, t1, ..., tn` recovers the
word and the translations, for trimmed comma-free fields and `ts ≠ []`. -/
theorem parseLine_mkLine (w : Str) (ts : List Str) (hw : GoodField w)
    (hts : ∀ t ∈ ts, GoodField t) (hne : ts ≠ []) :
    parseLine (mkLine w ts) = w :: ts := by
  have hshape : mkLine w ts = w ++ ',' :: (' ' :: joinCS ts) := by
    simp [mkLine, commaSpace]
  rw [parseLine, hshape, pySplit_append_sep ',' w _ hw.2]
  simp only [List.map_cons, pyStrip_of_good w hw,
    pySplit_space_join ts hne hts]

/-- Parsing the line written for a word with an empty translation list yields
the word and one empty field. -/
theorem parseLine_mkLine_nil (w : Str) (hw : GoodField w) :
    parseLine (mkLine w []) = [w, []] := by
  have hshape : mkLine w [] = w ++ ',' :: [' '] := by
    simp [mkLine, commaSpace, joinCS]
  rw [parseLine, hshape, pySplit_append_sep ',' w _ hw.2]
  simp only [List.map_cons, pyStrip_of_good w hw]
  norm_num
  decide

/-- The first field of any line the program writes is the word, whatever the
translation list. -/
theorem firstField_mkLine (w : Str) (ts : List Str) (hw : GoodField w) :
    firstField (mkLine w ts) = w := by
  have hshape : mkLine w ts = w ++ ',' :: (' ' :: joinCS ts) ∨ mkLine w ts = w ++ ',' :: [' '] := by
    cases ts with
    | nil => right; simp [mkLine, commaSpace, joinCS]
    | cons t rest => left; simp [mkLine, commaSpace]
  rcases hshape with h | h <;>
    rw [firstField, parseLine, h, pySplit_append_sep ',' w _ hw.2] <;>
    simp [pyStrip_of_good w hw]

/-! ## Lemmas about the store operations -/

theorem word_exists_go_cons (word l : Str) (rest : List Str) (i : Nat) :
    word_exists_go word (l :: rest) i
      = if firstField l = word
        then some (i, l, (parseLine l).length == 1)
        else word_exists_go word rest (i + 1) := rfl

theorem word_exists_go_eq_none (word : Str) (lines : List Str) (i : Nat)
    (h : ∀ l ∈ lines, firstField l ≠ word) :
    word_exists_go word lines i = none := by
  induction lines generalizing i with
  | nil => rfl
  | cons l rest ih =>
    rw [word_exists_go_cons, if_neg (h l (by simp))]
    exact ih _ (fun x hx => h x (by simp [hx]))

theorem word_exists_go_none_forall (word : Str) (lines : List Str) (i : Nat)
    (h : word_exists_go word lines i = none) :
    ∀ l ∈ lines, firstField l ≠ word := by
  induction lines generalizing i with
  | nil => simp
  | cons l rest ih =>
    rw [word_exists_go_cons] at h
    by_cases hl : firstField l = word
    · rw [if_pos hl] at h; cases h
    · rw [if_neg hl] at h
      intro x hx
      rcases List.mem_cons.mp hx with rfl | hx2
      · exact hl
      · exact ih (i + 1) h x hx2

theorem word_exists_go_append (word line : Str) (pre post : List Str) (i : Nat)
    (hpre : ∀ l ∈ pre, firstField l ≠ word) (hline : firstField line = word) :
    word_exists_go word (pre ++ line :: post) i
      = some (i + pre.length, line, (parseLine line).length == 1) := by
  induction pre generalizing i with
  | nil => simp [word_exists_go_cons, hline]
  | cons l pre' ih =>
    rw [List.cons_append, word_exists_go_cons, if_neg (hpre l (by simp))]
    rw [ih (i + 1) (fun x hx => hpre x (by simp [hx]))]
    have harith : i + 1 + pre'.length = i + (l :: pre').length := by
      simp only [List.length_cons]; omega
    rw [harith]

theorem word_exists_go_some (word : Str) (lines : List Str) (i j : Nat)
    (line : Str) (bare : Bool)
    (h : word_exists_go word lines i = some (j, line, bare)) :
    ∃ pre post, lines = pre ++ line :: post ∧ j = i + pre.length ∧
      (∀ l ∈ pre, firstField l ≠ word) ∧ firstField line = word ∧
      bare = ((parseLine line).length == 1) := by
  induction lines generalizing i with
  | nil => cases h
  | cons l rest ih =>
    rw [word_exists_go_cons] at h
    by_cases hl : firstField l = word
    · rw [if_pos hl] at h
      simp only [Option.some.injEq, Prod.mk.injEq] at h
      obtain ⟨hj, hline2, hbare⟩ := h
      subst hline2
      exact ⟨[], rest, by simp, by simp [hj], by simp, hl, hbare.symm⟩
    · rw [if_neg hl] at h
      obtain ⟨pre', post, hsh, hj, hpre, hfl, hbare⟩ := ih (i + 1) h
      exact ⟨l :: pre', post, by simp [hsh], by simp [hj]; omega,
        by
          intro x hx
          rcases List.mem_cons.mp hx with rfl | hx2
          · exact hl
          · exact hpre x hx2,
        hfl, hbare⟩

theorem update_translation_cons (word l : Str) (ts : List Str) (rest : List Str) :
    update_translation word ts (l :: rest)
      = if firstField l = word ∧ (parseLine l).length = 1
        then mkLine word ts :: rest
        else l :: update_translation word ts rest := rfl

theorem update_translation_eq (word line : Str) (ts : List Str)
    (pre post : List Str)
    (hpre : ∀ l ∈ pre, firstField l ≠ word)
    (hline : firstField line = word) (hbare : (parseLine line).length = 1) :
    update_translation word ts (pre ++ line :: post)
      = pre ++ mkLine word ts :: post := by
  induction pre with
  | nil => simp [update_translation_cons, hline, hbare]
  | cons l pre' ih =>
    rw [List.cons_append, update_translation_cons,
      if_neg (by
        intro hc
        exact hpre l (by simp) hc.1)]
    rw [ih (fun x hx => hpre x (by simp [hx]))]
    simp

/-- The translations of the supplied list that are genuinely new with respect
to the existing ones (duplicates among the supplied list are kept: the source
tests membership against the original existing list only). -/
def newOnes (existing : List Str) (ts : List Str) : List Str :=
  ts.filter (fun t => decide (t ∉ existing))

theorem merge_new_eq (existing ts : List Str) :
    merge_new existing ts
      = (existing ++ newOnes existing ts, (newOnes existing ts).length) := by
  suffices h : ∀ acc k,
      List.foldl
        (fun acc t => if t ∈ existing then acc else (acc.1 ++ [t], acc.2 + 1))
        (acc, k) ts
      = (acc ++ newOnes existing ts, k + (newOnes existing ts).length) by
    simpa [merge_new] using h existing 0
  induction ts with
  | nil => simp [newOnes]
  | cons t rest ih =>
    intro acc k
    by_cases h : t ∈ existing
    · rw [List.foldl_cons]
      simp only [if_pos h]
      rw [ih acc k]
      simp [newOnes, List.filter_cons, h]
    · rw [List.foldl_cons]
      simp only [if_neg h]
      rw [ih (acc ++ [t]) (k + 1)]
      simp only [newOnes, List.filter_cons]
      simp only [decide_not]
      rw [if_pos (by simp [h])]
      rw [Prod.mk.injEq]
      refine ⟨by simp, ?_⟩
      simp only [List.length_cons]
      omega

theorem append_translation_cons (word l : Str) (ts rest : List Str) :
    append_translation word ts (l :: rest)
      = if firstField l = word
        then (mkLine word (merge_new (parseLine l).tail ts).1 :: rest,
          (merge_new (parseLine l).tail ts).2)
        else ((l :: (append_translation word ts rest).1),
          (append_translation word ts rest).2) := rfl

theorem append_translation_eq (word line : Str) (ts : List Str)
    (pre post : List Str)
    (hpre : ∀ l ∈ pre, firstField l ≠ word) (hline : firstField line = word) :
    append_translation word ts (pre ++ line :: post)
      = (pre ++ mkLine word
            ((parseLine line).tail ++ newOnes (parseLine line).tail ts) :: post,
         (newOnes (parseLine line).tail ts).length) := by
  induction pre with
  | nil =>
    rw [List.nil_append, append_translation_cons, if_pos hline, merge_new_eq]
    simp
  | cons l pre' ih =>
    rw [List.cons_append, append_translation_cons, if_neg (hpre l (by simp))]
    rw [ih (fun x hx => hpre x (by simp [hx]))]
    simp

/-! ## Lemmas about the filesystem accessors -/

theorem getStore_setStore_self (fs : FS) (p : SPath) (v : List Str) :
    (fs.setStore p v).getStore p = some v := by
  cases p <;> rfl

theorem getStore_setStore_ne (fs : FS) (p q : SPath) (v : List Str) (h : q ≠ p) :
    (fs.setStore p v).getStore q = fs.getStore q := by
  cases p <;> cases q <;> first | rfl | exact absurd rfl h

theorem setStore_setStore (fs : FS) (p : SPath) (v w : List Str) :
    (fs.setStore p v).setStore p w = fs.setStore p w := by
  cases p <;> rfl

theorem getUsage_setStore (fs : FS) (p : SPath) (v : List Str) (u : UPath) :
    (fs.setStore p v).getUsage u = fs.getUsage u := by
  cases p <;> cases u <;> rfl

theorem getStore_setUsage (fs : FS) (u : UPath) (v : UsageRows) (p : SPath) :
    (fs.setUsage u v).getStore p = fs.getStore p := by
  cases p <;> cases u <;> rfl

theorem getUsage_setUsage_self (fs : FS) (u : UPath) (v : UsageRows) :
    (fs.setUsage u v).getUsage u = some v := by
  cases u <;> rfl

theorem getUsage_setUsage_ne (fs : FS) (u w : UPath) (v : UsageRows) (h : w ≠ u) :
    (fs.setUsage u v).getUsage w = fs.getUsage w := by
  cases u <;> cases w <;> first | rfl | exact absurd rfl h

theorem getStore_mkdirFor (fs : FS) (p q : SPath) :
    (fs.mkdirFor p).getStore q = fs.getStore q := by
  cases p <;> cases q <;> rfl

theorem getUsage_mkdirFor (fs : FS) (p : SPath) (u : UPath) :
    (fs.mkdirFor p).getUsage u = fs.getUsage u := by
  cases p <;> cases u <;> rfl

/-! ## The four branches of add_translation -/

theorem add_translation_absent (word : Str) (ts : List Str) (fl tl : Str)
    (fs : FS) (p : SPath)
    (hp : get_translation_file fl tl = p)
    (hs : fs.getStore p = none) :
    add_translation word ts fl tl fs
      = ("added".data,
         increment_word_usage_fs word fl
           ((fs.mkdirFor p).setStore p [mkLine word ts])) := by
  simp only [add_translation, hp, hs, getStore_setStore_self, Option.getD_some,
    word_exists]
  rw [show word_exists_go word [] 0 = none from rfl]
  simp only [List.nil_append, setStore_setStore]

theorem add_translation_notfound (word : Str) (ts : List Str) (fl tl : Str)
    (fs : FS) (p : SPath) (lines : List Str)
    (hp : get_translation_file fl tl = p)
    (hs : fs.getStore p = some lines)
    (hn : ∀ l ∈ lines, firstField l ≠ word) :
    add_translation word ts fl tl fs
      = ("added".data,
         increment_word_usage_fs word fl
           (fs.setStore p (lines ++ [mkLine word ts]))) := by
  have hgo : word_exists_go word lines 0 = none :=
    word_exists_go_eq_none word lines 0 hn
  simp only [add_translation, hp, hs, Option.getD_some, word_exists, hgo]

theorem add_translation_bare (word line : Str) (ts : List Str) (fl tl : Str)
    (fs : FS) (p : SPath) (pre post : List Str)
    (hp : get_translation_file fl tl = p)
    (hs : fs.getStore p = some (pre ++ line :: post))
    (hpre : ∀ l ∈ pre, firstField l ≠ word)
    (hline : firstField line = word)
    (hbare : (parseLine line).length = 1) :
    add_translation word ts fl tl fs
      = ("updated".data, fs.setStore p (pre ++ mkLine word ts :: post)) := by
  have hgo := word_exists_go_append word line pre post 0 hpre hline
  have hb : ((parseLine line).length == 1) = true := by simp [hbare]
  rw [hb] at hgo
  simp only [add_translation, hp, hs, Option.getD_some, word_exists, hgo]
  rw [update_translation_eq word line ts pre post hpre hline hbare]

theorem add_translation_found (word line : Str) (ts : List Str) (fl tl : Str)
    (fs : FS) (p : SPath) (pre post : List Str)
    (hp : get_translation_file fl tl = p)
    (hs : fs.getStore p = some (pre ++ line :: post))
    (hpre : ∀ l ∈ pre, firstField l ≠ word)
    (hline : firstField line = word)
    (hnb : (parseLine line).length ≠ 1) :
    add_translation word ts fl tl fs
      = (outcomeAppended (newOnes (parseLine line).tail ts).length,
         fs.setStore p
           (pre ++ mkLine word
              ((parseLine line).tail ++ newOnes (parseLine line).tail ts)
            :: post)) := by
  have hgo := word_exists_go_append word line pre post 0 hpre hline
  have hb : ((parseLine line).length == 1) = false := by simp [hnb]
  rw [hb] at hgo
  simp only [add_translation, hp, hs, Option.getD_some, word_exists, hgo]
  rw [append_translation_eq word line ts pre post hpre hline]

/-! ## Lemmas about the usage counters -/

theorem increment_word_usage_absent (word : Str) :
    increment_word_usage word none = [(word, 1)] := rfl

theorem increment_word_usage_notfound (word : Str) (rows : UsageRows)
    (h : ∀ r ∈ rows, r.1 ≠ word) :
    increment_word_usage word (some rows) = rows ++ [(word, 1)] := by
  have hany : rows.any (fun r => r.1 == word) = false := by
    rw [List.any_eq_false]
    intro r hr
    simpa using h r hr
  simp [increment_word_usage, hany]

theorem increment_word_usage_found (word : Str) (a b : UsageRows) (c : Nat)
    (ha : ∀ r ∈ a, r.1 ≠ word) (hb : ∀ r ∈ b, r.1 ≠ word) :
    increment_word_usage word (some (a ++ (word, c) :: b))
      = a ++ (word, c + 1) :: b := by
  have hany : (a ++ (word, c) :: b).any (fun r => r.1 == word) = true := by
    simp
  simp only [increment_word_usage, Option.getD_some, hany, if_true,
    List.map_append, List.map_cons, if_pos rfl]
  have hma : (a.map fun r => if r.1 = word then (r.1, r.2 + 1) else r) = a := by
    conv_rhs => rw [← List.map_id a]
    exact List.map_congr_left (fun r hr => by rw [if_neg (ha r hr)]; rfl)
  have hmb : (b.map fun r => if r.1 = word then (r.1, r.2 + 1) else r) = b := by
    conv_rhs => rw [← List.map_id b]
    exact List.map_congr_left (fun r hr => by rw [if_neg (hb r hr)]; rfl)
  rw [hma, hmb]

/-- The usage file is well formed for `word`: it has at most one row carrying
it (every file the program itself writes is of this form). -/
def atMostOneRow (word : Str) (rows : UsageRows) : Prop :=
  (∀ r ∈ rows, r.1 ≠ word) ∨
    ∃ a c b, rows = a ++ (word, c) :: b ∧
      (∀ r ∈ a, r.1 ≠ word) ∧ (∀ r ∈ b, r.1 ≠ word)

theorem filter_eq_nil_of_ne (word : Str) (rows : UsageRows)
    (h : ∀ r ∈ rows, r.1 ≠ word) :
    rows.filter (fun r => r.1 == word) = [] := by
  rw [List.filter_eq_nil_iff]
  intro r hr
  simpa using h r hr

theorem usageCount_increment (word : Str) (file : Option UsageRows)
    (h : atMostOneRow word (file.getD [])) :
    usageCount word (some (increment_word_usage word file))
      = usageCount word file + 1 := by
  rcases h with h | ⟨a, c, b, hsh, ha, hb⟩
  · cases file with
    | none =>
      simp [increment_word_usage_absent, usageCount]
    | some rows =>
      simp only [Option.getD_some] at h
      rw [increment_word_usage_notfound word rows h]
      simp only [usageCount, Option.getD_some, List.filter_append,
        filter_eq_nil_of_ne word rows h]
      simp
  · cases file with
    | none => simp at hsh
    | some rows =>
      simp only [Option.getD_some] at hsh
      subst hsh
      rw [increment_word_usage_found word a b c ha hb]
      simp only [usageCount, Option.getD_some, List.filter_append,
        filter_eq_nil_of_ne word a ha, List.filter_cons]
      simp [filter_eq_nil_of_ne word b hb]

/-! ## Preservation of the store invariant -/

theorem getStore_increment_fs (word lang : Str) (fs : FS) (q : SPath) :
    (increment_word_usage_fs word lang fs).getStore q = fs.getStore q := by
  simp [increment_word_usage_fs, getStore_setUsage]

theorem tail_parseLine_mkLine_nodup (word : Str) (ts : List Str)
    (hw : GoodField word) (hts : ∀ t ∈ ts, GoodField t) (hnd : ts.Nodup) :
    ((parseLine (mkLine word ts)).tail).Nodup := by
  cases ts with
  | nil => rw [parseLine_mkLine_nil word hw]; simp
  | cons t rest =>
    rw [parseLine_mkLine word (t :: rest) hw hts (by simp)]
    simpa using hnd

theorem storeInv_append_new (lines : List Str) (word : Str) (ts : List Str)
    (hinv : storeInv lines) (hn : ∀ l ∈ lines, firstField l ≠ word)
    (hw : GoodField word) (hts : ∀ t ∈ ts, GoodField t) (hnd : ts.Nodup) :
    storeInv (lines ++ [mkLine word ts]) := by
  constructor
  · rw [List.map_append, List.map_singleton, firstField_mkLine word ts hw,
      List.nodup_append]
    refine ⟨hinv.1, List.nodup_singleton word, ?_⟩
    intro x hx1 hx2
    rw [List.mem_singleton] at hx2
    subst hx2
    obtain ⟨l, hl, hfl⟩ := List.mem_map.mp hx1
    exact hn l hl hfl
  · intro l hl
    rcases List.mem_append.mp hl with h | h
    · exact hinv.2 l h
    · rw [List.mem_singleton] at h
      subst h
      exact tail_parseLine_mkLine_nodup word ts hw hts hnd

theorem storeInv_replace (pre post : List Str) (line newline : Str)
    (word : Str)
    (hinv : storeInv (pre ++ line :: post))
    (hline : firstField line = word)
    (hnew : firstField newline = word)
    (htail : ((parseLine newline).tail).Nodup) :
    storeInv (pre ++ newline :: post) := by
  constructor
  · have hmaps : (pre ++ newline :: post).map firstField
        = (pre ++ line :: post).map firstField := by
      simp [hline, hnew]
    rw [hmaps]
    exact hinv.1
  · intro l hl
    rcases List.mem_append.mp hl with h | h
    · exact hinv.2 l (by simp [h])
    · rcases List.mem_cons.mp h with rfl | h2
      · exact htail
      · exact hinv.2 l (by simp [h2])

/-- The core preservation fact: a single `add_translation` call with a
trimmed comma-free word and pairwise-distinct trimmed comma-free
translations keeps every store file satisfying the invariant. -/
theorem fileInv_add (word : Str) (ts : List Str) (fl tl : Str) (fs : FS)
    (hw : GoodField word) (hts : ∀ t ∈ ts, GoodField t) (hnd : ts.Nodup)
    (hinv : ∀ q, fileInv (fs.getStore q)) :
    ∀ q, fileInv ((add_translation word ts fl tl fs).2.getStore q) := by
  intro q
  set p := get_translation_file fl tl with hp
  rcases hs : fs.getStore p with _ | lines
  · rw [add_translation_absent word ts fl tl fs p hp.symm hs]
    by_cases hq : q = p
    · subst hq
      rw [getStore_increment_fs, getStore_setStore_self]
      show storeInv _
      have h0 : storeInv ([] : List Str) := ⟨by simp, by simp⟩
      simpa using storeInv_append_new [] word ts h0 (by simp) hw hts hnd
    · rw [getStore_increment_fs, getStore_setStore_ne _ _ _ _ hq,
        getStore_mkdirFor]
      exact hinv q
  · have hsi : storeInv lines := by
      have := hinv p
      rw [hs] at this
      exact this
    rcases hgo : word_exists_go word lines 0 with _ | ⟨i, line, bare⟩
    · -- word not present anywhere: new record appended
      have hn := word_exists_go_none_forall word lines 0 hgo
      rw [add_translation_notfound word ts fl tl fs p lines hp.symm hs hn]
      by_cases hq : q = p
      · subst hq
        rw [getStore_increment_fs, getStore_setStore_self]
        exact storeInv_append_new lines word ts hsi hn hw hts hnd
      · rw [getStore_increment_fs, getStore_setStore_ne _ _ _ _ hq]
        exact hinv q
    · obtain ⟨pre, post, hsh, _, hpre, hfl, hbare⟩ :=
        word_exists_go_some word lines 0 i line bare hgo
      subst hsh
      by_cases hb1 : (parseLine line).length = 1
      · -- bare placeholder: the line is rewritten with the supplied list
        rw [add_translation_bare word line ts fl tl fs p pre post hp.symm hs
          hpre hfl hb1]
        by_cases hq : q = p
        · subst hq
          rw [getStore_setStore_self]
          exact storeInv_replace pre post line (mkLine word ts) word hsi hfl
            (firstField_mkLine word ts hw)
            (tail_parseLine_mkLine_nodup word ts hw hts hnd)
        · rw [getStore_setStore_ne _ _ _ _ hq]
          exact hinv q
      · -- existing translations: the line is rewritten with the merged list
        rw [add_translation_found word line ts fl tl fs p pre post hp.symm hs
          hpre hfl hb1]
        by_cases hq : q = p
        · subst hq
          rw [getStore_setStore_self]
          set ex := (parseLine line).tail with hex
          have hexnd : ex.Nodup := hsi.2 line (by simp)
          have hexgood : ∀ x ∈ ex, GoodField x :=
            fun x hx => fields_good line x (List.mem_of_mem_tail hx)
          have hexne : ex ≠ [] := by
            rcases hpl : parseLine line with _ | ⟨f0, rest0⟩
            · exact absurd hpl (parseLine_ne_nil line)
            · rcases rest0 with _ | ⟨f1, rest1⟩
              · exact absurd (by rw [hpl]; rfl) hb1
              · rw [hex, hpl]; simp
          have hmerged : ∀ x ∈ ex ++ newOnes ex ts, GoodField x := by
            intro x hx
            rcases List.mem_append.mp hx with h | h
            · exact hexgood x h
            · exact hts x (List.mem_filter.mp h).1
          have hmnd : (ex ++ newOnes ex ts).Nodup := by
            refine (hexnd.append (hnd.filter _)) ?_
            intro x hx1 hx2
            have := (List.mem_filter.mp hx2).2
            exact (of_decide_eq_true this) hx1
          have hmne : ex ++ newOnes ex ts ≠ [] := by
            intro h
            exact hexne (List.append_eq_nil.mp h).1
          refine storeInv_replace pre post line _ word hsi hfl
            (firstField_mkLine word _ hw) ?_
          rw [parseLine_mkLine word _ hw hmerged hmne]
          simpa using hmnd
        · rw [getStore_setStore_ne _ _ _ _ hq]
          exact hinv q

/-! ## The shape of the outcome strings -/

theorem outcomeAppended_ne_added (n : Nat) :
    outcomeAppended n ≠ "added".data := by
  intro h
  have hlen := congrArg List.length h
  rw [outcomeAppended, List.length_append,
    show ("appended_".data).length = 9 from by decide,
    show ("added".data).length = 5 from by decide] at hlen
  omega

theorem outcomeAppended_ne_updated (n : Nat) :
    outcomeAppended n ≠ "updated".data := by
  intro h
  have hlen := congrArg List.length h
  rw [outcomeAppended, List.length_append,
    show ("appended_".data).length = 9 from by decide,
    show ("updated".data).length = 7 from by decide] at hlen
  omega

theorem outcomeAppended_take9 (n : Nat) :
    (outcomeAppended n).take 9 = "appended_".data :=
  List.take_left' (by decide)

theorem digitChar_mem_digits : ∀ m < 10, Nat.digitChar m ∈ "0123456789".data := by
  decide

theorem toDigitsCore_mem (fuel : Nat) :
    ∀ (n : Nat) (acc : List Char),
      (∀ c ∈ acc, c ∈ "0123456789".data) →
      ∀ c ∈ Nat.toDigitsCore 10 fuel n acc, c ∈ "0123456789".data := by
  induction fuel with
  | zero => exact fun n acc hacc => hacc
  | succ fuel ih =>
    intro n acc hacc
    have heq : Nat.toDigitsCore 10 (fuel + 1) n acc
        = if n / 10 = 0 then Nat.digitChar (n % 10) :: acc
          else Nat.toDigitsCore 10 fuel (n / 10) (Nat.digitChar (n % 10) :: acc) :=
      rfl
    rw [heq]
    have hd : Nat.digitChar (n % 10) ∈ "0123456789".data :=
      digitChar_mem_digits (n % 10) (Nat.mod_lt n (by norm_num))
    have hacc2 : ∀ c ∈ Nat.digitChar (n % 10) :: acc, c ∈ "0123456789".data := by
      intro c hc
      rcases List.mem_cons.mp hc with rfl | hc2
      · exact hd
      · exact hacc c hc2
    by_cases h0 : n / 10 = 0
    · rw [if_pos h0]
      exact hacc2
    · rw [if_neg h0]
      exact ih (n / 10) _ hacc2

theorem repr_mem_digits (n : Nat) :
    ∀ c ∈ (Nat.repr n).data, c ∈ "0123456789".data := by
  have h : (Nat.repr n).data = Nat.toDigitsCore 10 (n + 1) n [] := rfl
  rw [h]
  exact toDigitsCore_mem (n + 1) n [] (by simp)

theorem underscore_not_mem_repr (n : Nat) : '_' ∉ (Nat.repr n).data :=
  fun h => absurd (repr_mem_digits n '_' h) (by decide)

theorem pySplit_outcomeAppended (n : Nat) :
    pySplit '_' (outcomeAppended n) = ["appended".data, (Nat.repr n).data] := by
  have hshape : outcomeAppended n = "appended".data ++ '_' :: (Nat.repr n).data := rfl
  rw [hshape, pySplit_append_sep '_' _ _ (by decide),
    pySplit_of_no_sep '_' _ (underscore_not_mem_repr n)]

theorem setStore_eq_self (fs : FS) (p : SPath) (v : List Str)
    (h : fs.getStore p = some v) :
    fs.setStore p v = fs := by
  cases fs
  cases p <;> simp_all [FS.getStore, FS.setStore]

/-! ## Claim C1 -/

/-- C1 as stated is false.  Four reachable stores (each reached from the
empty filesystem by `add_translation` calls) violate the invariant:
duplicate supplied translations are appended twice (membership is tested
against the original existing list only); a supplied translation differing
from an existing field only by surrounding whitespace is appended and trims
back to a duplicate; an untrimmed word or a word containing a comma is never
matched by the trimmed first field and produces a second line for the same
word. -/
theorem C1_counterexample :
    ((add_translation "maison".data ["home".data, "home".data] "en".data "fr".data
        (add_translation "maison".data ["house".data] "en".data "fr".data FS.empty).2).2.enfrStore
      = some ["maison, house, home, home".data]
      ∧ ¬ fileInv (some ["maison, house, home, home".data]))
    ∧ ((add_translation "maison".data [" house".data] "en".data "fr".data
        (add_translation "maison".data ["house".data] "en".data "fr".data FS.empty).2).2.enfrStore
      = some ["maison, house,  house".data]
      ∧ ¬ fileInv (some ["maison, house,  house".data]))
    ∧ ((add_translation " a".data ["y".data] "en".data "fr".data
        (add_translation "a".data ["x".data] "en".data "fr".data FS.empty).2).2.enfrStore
      = some ["a, x".data, " a, y".data]
      ∧ ¬ fileInv (some ["a, x".data, " a, y".data]))
    ∧ ((add_translation "b,c".data ["y".data] "en".data "fr".data
        (add_translation "b".data ["x".data] "en".data "fr".data FS.empty).2).2.enfrStore
      = some ["b, x".data, "b,c, y".data]
      ∧ ¬ fileInv (some ["b, x".data, "b,c, y".data])) := by
  decide

/-- C1 (amended): every `add_translation` call whose word and supplied
translations are trimmed and comma-free, the supplied list being pairwise
distinct, preserves the store invariant (each record's translation list has
no duplicates and each word is the first field of at most one line) — so
every store reachable by such calls satisfies it.  The original claim's
allowance of duplicated or whitespace-variant supplied strings is dropped:
the counterexample shows those calls break the invariant. -/
theorem C1_invariant_preserved (word : Str) (ts : List Str) (fl tl : Str)
    (fs : FS)
    (hw : GoodField word) (hts : ∀ t ∈ ts, GoodField t) (hnd : ts.Nodup)
    (hinv : ∀ q, fileInv (fs.getStore q)) :
    ∀ q, fileInv ((add_translation word ts fl tl fs).2.getStore q) :=
  fileInv_add word ts fl tl fs hw hts hnd hinv

/-- C1 witness: the amended preservation theorem applied at a concrete
store. -/
theorem C1_invariant_preserved_witness :
    (GoodField "maison".data
      ∧ (∀ t ∈ ["home".data], GoodField t)
      ∧ (["home".data] : List Str).Nodup
      ∧ (∀ q, fileInv
          (({ FS.empty with enfrStore := some ["maison, house".data] } : FS).getStore q)))
    ∧ ∀ q, fileInv ((add_translation "maison".data ["home".data] "en".data "fr".data
        { FS.empty with enfrStore := some ["maison, house".data] }).2.getStore q) :=
  ⟨⟨by decide, by decide, by decide, by intro q; cases q <;> decide⟩,
    C1_invariant_preserved "maison".data ["home".data] "en".data "fr".data
      { FS.empty with enfrStore := some ["maison, house".data] }
      (by decide) (by decide) (by decide) (by intro q; cases q <;> decide)⟩

/-! ## Claim C2 -/

/-- C2 as stated is false: a successful call with outcome `updated` (and one
with outcome `appended_1`) leaves the usage file untouched, so the usage
counter is not incremented once per successful call regardless of outcome. -/
theorem C2_counterexample :
    ((add_translation "bonjour".data ["hello".data] "fr".data "en".data
        { FS.empty with frenStore := some ["bonjour".data], frUsage := some [] }).1
       = "updated".data
      ∧ (add_translation "bonjour".data ["hello".data] "fr".data "en".data
        { FS.empty with frenStore := some ["bonjour".data], frUsage := some [] }).2.frUsage
       = some [])
    ∧ ((add_translation "maison".data ["home".data] "fr".data "en".data
        { FS.empty with frenStore := some ["maison, house".data], frUsage := some [] }).1
       = "appended_1".data
      ∧ (add_translation "maison".data ["home".data] "fr".data "en".data
        { FS.empty with frenStore := some ["maison, house".data], frUsage := some [] }).2.frUsage
       = some []) := by
  decide

/-- C2 (amended): the usage counter for `(word, fromLang)` is incremented
exactly once when and only when the call's outcome is `added`; calls whose
outcome is `updated` or `appended_N` leave both usage files unchanged, and
the other language's usage file is never touched.  (The exactly-once reading
assumes the usage file holds at most one row for the word, which is how the
program itself writes it.) -/
theorem C2_usage_incremented_iff_added (word : Str) (ts : List Str)
    (fl tl : Str) (fs : FS)
    (hrow : atMostOneRow word ((fs.getUsage (get_increment_file fl)).getD [])) :
    ((add_translation word ts fl tl fs).1 = "added".data →
       usageCount word
           ((add_translation word ts fl tl fs).2.getUsage (get_increment_file fl))
         = usageCount word (fs.getUsage (get_increment_file fl)) + 1)
    ∧ ((add_translation word ts fl tl fs).1 ≠ "added".data →
       ∀ u, (add_translation word ts fl tl fs).2.getUsage u = fs.getUsage u)
    ∧ (∀ u, u ≠ get_increment_file fl →
       (add_translation word ts fl tl fs).2.getUsage u = fs.getUsage u) := by
  set p := get_translation_file fl tl with hp
  set uf := get_increment_file fl with huf
  rcases hs : fs.getStore p with _ | lines
  · rw [add_translation_absent word ts fl tl fs p hp.symm hs]
    refine ⟨?_, ?_, ?_⟩
    · intro _
      simp only [increment_word_usage_fs, ← huf, getUsage_setUsage_self,
        getUsage_setStore, getUsage_mkdirFor]
      exact usageCount_increment word _ hrow
    · intro h
      exact absurd rfl h
    · intro u hu
      simp only [increment_word_usage_fs, ← huf]
      rw [getUsage_setUsage_ne _ _ _ _ hu, getUsage_setStore, getUsage_mkdirFor]
  · rcases hgo : word_exists_go word lines 0 with _ | ⟨i, line, bare⟩
    · have hn := word_exists_go_none_forall word lines 0 hgo
      rw [add_translation_notfound word ts fl tl fs p lines hp.symm hs hn]
      refine ⟨?_, ?_, ?_⟩
      · intro _
        simp only [increment_word_usage_fs, ← huf, getUsage_setUsage_self,
          getUsage_setStore]
        exact usageCount_increment word _ hrow
      · intro h
        exact absurd rfl h
      · intro u hu
        simp only [increment_word_usage_fs, ← huf]
        rw [getUsage_setUsage_ne _ _ _ _ hu, getUsage_setStore]
    · obtain ⟨pre, post, hsh, _, hpre, hfl2, hbare⟩ :=
        word_exists_go_some word lines 0 i line bare hgo
      subst hsh
      by_cases hb1 : (parseLine line).length = 1
      · rw [add_translation_bare word line ts fl tl fs p pre post hp.symm hs
          hpre hfl2 hb1]
        refine ⟨?_, ?_, ?_⟩
        · intro h
          have h2 : ("updated".data : Str) = "added".data := h
          exact absurd h2 (by decide)
        · intro _ u
          rw [getUsage_setStore]
        · intro u _
          rw [getUsage_setStore]
      · rw [add_translation_found word line ts fl tl fs p pre post hp.symm hs
          hpre hfl2 hb1]
        refine ⟨?_, ?_, ?_⟩
        · intro h
          have h2 : outcomeAppended (newOnes (parseLine line).tail ts).length
              = "added".data := h
          exact absurd h2 (outcomeAppended_ne_added _)
        · intro _ u
          rw [getUsage_setStore]
        · intro u _
          rw [getUsage_setStore]

/-- C2 witness: the amended theorem applied at a concrete `added` call, where
the counter rises from 0 to 1. -/
theorem C2_usage_witness :
    atMostOneRow "chat".data
      ((FS.empty.getUsage (get_increment_file "fr".data)).getD [])
    ∧ usageCount "chat".data
        ((add_translation "chat".data ["cat".data] "fr".data "en".data FS.empty).2.getUsage
          (get_increment_file "fr".data))
      = usageCount "chat".data (FS.empty.getUsage (get_increment_file "fr".data)) + 1 :=
  ⟨Or.inl (by decide),
   (C2_usage_incremented_iff_added "chat".data ["cat".data] "fr".data "en".data
      FS.empty (Or.inl (by decide))).1 (by decide)⟩

/-! ## Claim C3 -/

/-- C3 as stated is false: an invalid direction leaves every file untouched
and emits the error message, but the filesystem state does not equal the
state before the invocation — the manager's constructor creates the
`english/` and `french/` directories before the direction is validated. -/
theorem C3_counterexample :
    (trans "xyz".data "w".data ["t".data] FS.empty).2 = [msg_invalid_direction]
    ∧ (trans "xyz".data "w".data ["t".data] FS.empty).1 ≠ FS.empty := by
  decide

/-- C3 (amended): for every direction outside `enfr`/`fren` (with at least
one translation supplied), the tool emits the invalid-direction error and
creates or modifies no file — all four files are exactly as before; only the
two language directories may be created by manager initialization. -/
theorem C3_invalid_direction_no_file_io (direction word : Str)
    (ts : List Str) (fs : FS)
    (hts : ts ≠ [])
    (h1 : direction ≠ "enfr".data) (h2 : direction ≠ "fren".data) :
    (trans direction word ts fs).2 = [msg_invalid_direction]
    ∧ (trans direction word ts fs).1.enfrStore = fs.enfrStore
    ∧ (trans direction word ts fs).1.frenStore = fs.frenStore
    ∧ (trans direction word ts fs).1.enUsage = fs.enUsage
    ∧ (trans direction word ts fs).1.frUsage = fs.frUsage := by
  have hred : trans direction word ts fs
      = (ensure_directories fs, [msg_invalid_direction]) := by
    simp only [trans, if_neg hts, if_neg h1, if_neg h2]
  rw [hred]
  exact ⟨rfl, rfl, rfl, rfl, rfl⟩

/-- C3 witness: the amended theorem applied at a concrete invalid
direction. -/
theorem C3_invalid_direction_witness :
    ((["t".data] : List Str) ≠ [] ∧ "xyz".data ≠ "enfr".data
      ∧ "xyz".data ≠ "fren".data)
    ∧ ((trans "xyz".data "w".data ["t".data] FS.empty).2 = [msg_invalid_direction]
      ∧ (trans "xyz".data "w".data ["t".data] FS.empty).1.enfrStore = FS.empty.enfrStore
      ∧ (trans "xyz".data "w".data ["t".data] FS.empty).1.frenStore = FS.empty.frenStore
      ∧ (trans "xyz".data "w".data ["t".data] FS.empty).1.enUsage = FS.empty.enUsage
      ∧ (trans "xyz".data "w".data ["t".data] FS.empty).1.frUsage = FS.empty.frUsage) :=
  ⟨⟨by decide, by decide, by decide⟩,
   C3_invalid_direction_no_file_io "xyz".data "w".data ["t".data] FS.empty
     (by decide) (by decide) (by decide)⟩

/-! ## Claim C4 -/

/-- C4 as stated is false: re-adding a translation already present yields
`appended_0`, but the store need not be byte-identical — the matched line is
rewritten in canonical `", "`-joined form, so a line like `maison,house`
(no space) is reformatted even though nothing was added. -/
theorem C4_counterexample :
    (add_translation "maison".data ["house".data] "en".data "fr".data
        { FS.empty with enfrStore := some ["maison,house".data] }).1
      = "appended_0".data
    ∧ (add_translation "maison".data ["house".data] "en".data "fr".data
        { FS.empty with enfrStore := some ["maison,house".data] }).2.enfrStore
      = some ["maison, house".data]
    ∧ ("maison, house".data : Str) ≠ "maison,house".data := by
  decide

/-- C4 (amended): when the word's record already contains every supplied
translation, the call returns `appended_0`; the store is byte-identical
provided the record's line is already in the canonical form the program
writes (trimmed comma-free fields joined by comma-space). -/
theorem C4_idempotent_readd (word : Str) (ts ex : List Str) (fl tl : Str)
    (fs : FS) (p : SPath) (pre post : List Str)
    (hp : get_translation_file fl tl = p)
    (hs : fs.getStore p = some (pre ++ mkLine word ex :: post))
    (hpre : ∀ l ∈ pre, firstField l ≠ word)
    (hw : GoodField word) (hex : ∀ t ∈ ex, GoodField t) (hexne : ex ≠ [])
    (hsub : ∀ t ∈ ts, t ∈ ex) :
    add_translation word ts fl tl fs = ("appended_0".data, fs) := by
  have hparse : parseLine (mkLine word ex) = word :: ex :=
    parseLine_mkLine word ex hw hex hexne
  have hfl2 : firstField (mkLine word ex) = word := firstField_mkLine word ex hw
  have hnb : (parseLine (mkLine word ex)).length ≠ 1 := by
    rw [hparse]
    cases ex with
    | nil => exact absurd rfl hexne
    | cons a b => simp
  have htail : (parseLine (mkLine word ex)).tail = ex := by
    rw [hparse]
    rfl
  have hnew : newOnes (parseLine (mkLine word ex)).tail ts = [] := by
    rw [htail, newOnes, List.filter_eq_nil_iff]
    intro t ht
    simp [hsub t ht]
  rw [add_translation_found word (mkLine word ex) ts fl tl fs p pre post hp hs
    hpre hfl2 hnb]
  rw [hnew, htail, List.append_nil, List.length_nil,
    setStore_eq_self fs p _ hs]
  rw [show outcomeAppended 0 = "appended_0".data from by decide]

/-- C4 witness: the amended theorem applied at a canonical one-line store. -/
theorem C4_idempotent_readd_witness :
    (({ FS.empty with enfrStore := some ["maison, house".data] } : FS).getStore SPath.enfr
       = some ([] ++ mkLine "maison".data ["house".data] :: [])
      ∧ GoodField "maison".data
      ∧ (∀ t ∈ ["house".data], t ∈ ["house".data]))
    ∧ add_translation "maison".data ["house".data] "en".data "fr".data
        { FS.empty with enfrStore := some ["maison, house".data] }
      = ("appended_0".data, { FS.empty with enfrStore := some ["maison, house".data] }) :=
  ⟨⟨by decide, by decide, by decide⟩,
   C4_idempotent_readd "maison".data ["house".data] ["house".data] "en".data
     "fr".data { FS.empty with enfrStore := some ["maison, house".data] }
     SPath.enfr [] [] (by decide) (by decide) (by decide) (by decide)
     (by decide) (by decide) (by decide)⟩

/-! ## Claim C5 -/

/-- C5: when the word's record already has translations, the call rewrites
only that record, keeping the existing translations (the parsed tail of the
matched line) in their original order, appending exactly the supplied
translations not already present — membership tested by exact string
equality against the trimmed fields — and returns `appended_N` with N the
number of appended translations; every other line and the other store are
untouched. -/
theorem C5_merge_semantics (word line : Str) (ts : List Str) (fl tl : Str)
    (fs : FS) (p : SPath) (pre post : List Str)
    (hp : get_translation_file fl tl = p)
    (hs : fs.getStore p = some (pre ++ line :: post))
    (hpre : ∀ l ∈ pre, firstField l ≠ word)
    (hline : firstField line = word)
    (hnb : (parseLine line).length ≠ 1) :
    (add_translation word ts fl tl fs).1
      = outcomeAppended (newOnes (parseLine line).tail ts).length
    ∧ (add_translation word ts fl tl fs).2.getStore p
      = some (pre ++ mkLine word
          ((parseLine line).tail ++ newOnes (parseLine line).tail ts) :: post)
    ∧ (∀ q, q ≠ p →
        (add_translation word ts fl tl fs).2.getStore q = fs.getStore q) := by
  rw [add_translation_found word line ts fl tl fs p pre post hp hs hpre hline hnb]
  exact ⟨rfl, getStore_setStore_self fs p _,
    fun q hq => getStore_setStore_ne fs p q _ hq⟩

/-- C5 witness: merging `[house, home]` into `maison, house` appends only
`home` and reports `appended_1`. -/
theorem C5_merge_witness :
    (add_translation "maison".data ["house".data, "home".data] "en".data "fr".data
        { FS.empty with enfrStore := some ["maison, house".data] }).1
      = "appended_1".data
    ∧ (add_translation "maison".data ["house".data, "home".data] "en".data "fr".data
        { FS.empty with enfrStore := some ["maison, house".data] }).2.getStore SPath.enfr
      = some ["maison, house, home".data] := by
  have h := C5_merge_semantics "maison".data "maison, house".data
    ["house".data, "home".data] "en".data "fr".data
    { FS.empty with enfrStore := some ["maison, house".data] }
    SPath.enfr [] [] (by decide) (by decide) (by decide) (by decide) (by decide)
  refine ⟨?_, ?_⟩
  · rw [h.1]; decide
  · rw [h.2.1]; decide

/-! ## Claim C6 -/

/-- C6: when the store's record found for the word is a bare placeholder
(its parsed line is just the word), the call rewrites that single line as
the word followed by the supplied translations, leaves every other line and
the other store unchanged in place, returns `updated`, and touches no usage
file. -/
theorem C6_bare_placeholder_update (word line : Str) (ts : List Str)
    (fl tl : Str) (fs : FS) (p : SPath) (pre post : List Str)
    (hp : get_translation_file fl tl = p)
    (hs : fs.getStore p = some (pre ++ line :: post))
    (hpre : ∀ l ∈ pre, firstField l ≠ word)
    (hplace : parseLine line = [word]) :
    (add_translation word ts fl tl fs).1 = "updated".data
    ∧ (add_translation word ts fl tl fs).2.getStore p
      = some (pre ++ mkLine word ts :: post)
    ∧ (∀ q, q ≠ p →
        (add_translation word ts fl tl fs).2.getStore q = fs.getStore q)
    ∧ (∀ u, (add_translation word ts fl tl fs).2.getUsage u = fs.getUsage u) := by
  have hline : firstField line = word := by rw [firstField, hplace]; rfl
  have hb : (parseLine line).length = 1 := by rw [hplace]; rfl
  rw [add_translation_bare word line ts fl tl fs p pre post hp hs hpre hline hb]
  exact ⟨rfl, getStore_setStore_self fs p _,
    fun q hq => getStore_setStore_ne fs p q _ hq,
    fun u => getUsage_setStore fs p _ u⟩

/-- C6 witness: completing the bare line `bonjour` with `[hello]` yields
`updated`, the line `bonjour, hello`, and untouched usage files. -/
theorem C6_bare_placeholder_witness :
    (add_translation "bonjour".data ["hello".data] "fr".data "en".data
        { FS.empty with frenStore := some ["bonjour".data, "chat, cat".data] }).1
      = "updated".data
    ∧ (add_translation "bonjour".data ["hello".data] "fr".data "en".data
        { FS.empty with frenStore := some ["bonjour".data, "chat, cat".data] }).2.getStore
          SPath.fren
      = some ["bonjour, hello".data, "chat, cat".data]
    ∧ (add_translation "bonjour".data ["hello".data] "fr".data "en".data
        { FS.empty with frenStore := some ["bonjour".data, "chat, cat".data] }).2.getUsage
          UPath.fr
      = none := by
  have h := C6_bare_placeholder_update "bonjour".data "bonjour".data
    ["hello".data] "fr".data "en".data
    { FS.empty with frenStore := some ["bonjour".data, "chat, cat".data] }
    SPath.fren [] ["chat, cat".data] (by decide) (by decide) (by decide)
    (by decide)
  refine ⟨h.1, ?_, ?_⟩
  · rw [h.2.1]; decide
  · rw [h.2.2.2 UPath.fr]; decide

/-! ## Claim C7 -/

/-- C7: when no line's first field is the word (including the case of an
absent store file, which is created), the call appends the record
`word, t1, ..., tn` at the end of the store, leaves all pre-existing lines
unchanged, increments the usage counter for the word in the source
language's usage file by exactly one, and returns `added`.  (The
exactly-once counter reading assumes at most one usage row for the word, as
the program itself maintains.) -/
theorem C7_added_semantics (word : Str) (ts : List Str) (fl tl : Str)
    (fs : FS) (p : SPath)
    (hp : get_translation_file fl tl = p)
    (hn : ∀ l ∈ (fs.getStore p).getD [], firstField l ≠ word)
    (hrow : atMostOneRow word ((fs.getUsage (get_increment_file fl)).getD [])) :
    (add_translation word ts fl tl fs).1 = "added".data
    ∧ (add_translation word ts fl tl fs).2.getStore p
      = some ((fs.getStore p).getD [] ++ [mkLine word ts])
    ∧ usageCount word
        ((add_translation word ts fl tl fs).2.getUsage (get_increment_file fl))
      = usageCount word (fs.getUsage (get_increment_file fl)) + 1
    ∧ (∀ q, q ≠ p →
        (add_translation word ts fl tl fs).2.getStore q = fs.getStore q) := by
  rcases hs : fs.getStore p with _ | lines
  · rw [add_translation_absent word ts fl tl fs p hp hs]
    refine ⟨rfl, ?_, ?_, ?_⟩
    · rw [getStore_increment_fs, getStore_setStore_self]
      simp
    · simp only [increment_word_usage_fs, getUsage_setUsage_self,
        getUsage_setStore, getUsage_mkdirFor]
      exact usageCount_increment word _ hrow
    · intro q hq
      rw [getStore_increment_fs, getStore_setStore_ne _ _ _ _ hq,
        getStore_mkdirFor]
  · rw [hs, Option.getD_some] at hn
    rw [add_translation_notfound word ts fl tl fs p lines hp hs hn]
    refine ⟨rfl, ?_, ?_, ?_⟩
    · rw [getStore_increment_fs, getStore_setStore_self, Option.getD_some]
    · simp only [increment_word_usage_fs, getUsage_setUsage_self,
        getUsage_setStore]
      exact usageCount_increment word _ hrow
    · intro q hq
      rw [getStore_increment_fs, getStore_setStore_ne _ _ _ _ hq]

/-- C7 witness: adding `chat → cat` under `fren` on the empty filesystem
creates the store with the single record and sets the usage count to 1. -/
theorem C7_added_witness :
    (add_translation "chat".data ["cat".data] "fr".data "en".data FS.empty).1
      = "added".data
    ∧ (add_translation "chat".data ["cat".data] "fr".data "en".data
        FS.empty).2.getStore SPath.fren = some ["chat, cat".data]
    ∧ usageCount "chat".data
        ((add_translation "chat".data ["cat".data] "fr".data "en".data
          FS.empty).2.getUsage (get_increment_file "fr".data))
      = usageCount "chat".data (FS.empty.getUsage (get_increment_file "fr".data)) + 1 := by
  have h := C7_added_semantics "chat".data ["cat".data] "fr".data "en".data
    FS.empty SPath.fren (by decide) (by decide) (Or.inl (by decide))
  refine ⟨h.1, ?_, h.2.2.1⟩
  rw [h.2.1]
  decide

/-! ## Claim C8 -/

/-- C8: `increment_word_usage` creates the usage file holding only the
header (zero rows) when absent and then appends the row `(word, 1)`; when a
row for the word exists its count is incremented by exactly one with every
other row unchanged in place; when no row matches, `(word, 1)` is appended
after all existing rows. -/
theorem C8_increment_usage_semantics (word : Str) :
    (increment_word_usage word none = [(word, 1)])
    ∧ (∀ rows : UsageRows, (∀ r ∈ rows, r.1 ≠ word) →
        increment_word_usage word (some rows) = rows ++ [(word, 1)])
    ∧ (∀ (a : UsageRows) (c : Nat) (b : UsageRows),
        (∀ r ∈ a, r.1 ≠ word) → (∀ r ∈ b, r.1 ≠ word) →
        increment_word_usage word (some (a ++ (word, c) :: b))
          = a ++ (word, c + 1) :: b) :=
  ⟨increment_word_usage_absent word,
   fun rows h => increment_word_usage_notfound word rows h,
   fun a c b ha hb => increment_word_usage_found word a b c ha hb⟩

/-- C8 witness: the three cases at concrete rows. -/
theorem C8_increment_usage_witness :
    (∀ r ∈ ([("chien".data, 4)] : UsageRows), r.1 ≠ "chat".data)
    ∧ increment_word_usage "chat".data (some [("chien".data, 4)])
      = [("chien".data, 4), ("chat".data, 1)]
    ∧ increment_word_usage "chat".data (some [("chat".data, 4)])
      = [("chat".data, 5)] :=
  ⟨by decide,
   (C8_increment_usage_semantics "chat".data).2.1 [("chien".data, 4)] (by decide),
   by simpa using
     (C8_increment_usage_semantics "chat".data).2.2 [] 4 [] (by decide) (by decide)⟩

/-! ## Claim C9 -/

/-- C9: every `add_translation` call returns `added`, `updated`, or
`appended_N` for some natural N, and the reporting chain of `trans` handles
each of those through its first three branches — so the final fallback
branch (the message that the word already exists with translations) is
unreachable. -/
theorem C9_outcomes_exhaustive (word : Str) (ts : List Str) (fl tl : Str)
    (fs : FS) :
    ((add_translation word ts fl tl fs).1 = "added".data
      ∨ (add_translation word ts fl tl fs).1 = "updated".data
      ∨ ∃ n, (add_translation word ts fl tl fs).1 = outcomeAppended n)
    ∧ (∀ w, report "added".data w = msg_added w)
    ∧ (∀ w, report "updated".data w = msg_updated w)
    ∧ (∀ n w, report (outcomeAppended n) w = msg_appended (Nat.repr n).data w) := by
  constructor
  · set p := get_translation_file fl tl with hp
    rcases hs : fs.getStore p with _ | lines
    · rw [add_translation_absent word ts fl tl fs p hp.symm hs]
      exact Or.inl rfl
    · rcases hgo : word_exists_go word lines 0 with _ | ⟨i, line, bare⟩
      · have hn := word_exists_go_none_forall word lines 0 hgo
        rw [add_translation_notfound word ts fl tl fs p lines hp.symm hs hn]
        exact Or.inl rfl
      · obtain ⟨pre, post, hsh, _, hpre, hfl2, hbare⟩ :=
          word_exists_go_some word lines 0 i line bare hgo
        subst hsh
        by_cases hb1 : (parseLine line).length = 1
        · rw [add_translation_bare word line ts fl tl fs p pre post hp.symm hs
            hpre hfl2 hb1]
          exact Or.inr (Or.inl rfl)
        · rw [add_translation_found word line ts fl tl fs p pre post hp.symm hs
            hpre hfl2 hb1]
          exact Or.inr (Or.inr ⟨_, rfl⟩)
  · refine ⟨fun w => ?_, fun w => ?_, fun n w => ?_⟩
    · rw [report, if_pos rfl]
    · rw [report, if_neg (by decide), if_pos rfl]
    · rw [report, if_neg (outcomeAppended_ne_added n),
        if_neg (outcomeAppended_ne_updated n), if_pos (outcomeAppended_take9 n),
        pySplit_outcomeAppended]
      rfl

/-! ## Claim C10 -/

/-- C10: when the word is the first field of several lines, `word_exists`
returns the earliest such line (lowest zero-based index) with its metadata,
and the mutation performed by `add_translation` rewrites only that line:
everything before it and after it — including the later duplicate lines —
is written back unchanged in its original position. -/
theorem C10_first_match_only (word line : Str) (ts : List Str) (fl tl : Str)
    (fs : FS) (p : SPath) (pre post : List Str)
    (hp : get_translation_file fl tl = p)
    (hs : fs.getStore p = some (pre ++ line :: post))
    (hpre : ∀ l ∈ pre, firstField l ≠ word)
    (hline : firstField line = word) :
    word_exists word (some (pre ++ line :: post))
      = (true, some (pre.length, line, (parseLine line).length == 1))
    ∧ ∃ nl, (add_translation word ts fl tl fs).2.getStore p
        = some (pre ++ nl :: post) := by
  constructor
  · have hgo := word_exists_go_append word line pre post 0 hpre hline
    simp only [word_exists, hgo, Nat.zero_add]
  · by_cases hb1 : (parseLine line).length = 1
    · refine ⟨mkLine word ts, ?_⟩
      rw [add_translation_bare word line ts fl tl fs p pre post hp hs hpre
        hline hb1, getStore_setStore_self]
    · refine ⟨mkLine word
        ((parseLine line).tail ++ newOnes (parseLine line).tail ts), ?_⟩
      rw [add_translation_found word line ts fl tl fs p pre post hp hs hpre
        hline hb1, getStore_setStore_self]

/-- C10 witness: with two lines keyed by the same word, only the first is
rewritten and the later duplicate survives unchanged. -/
theorem C10_first_match_witness :
    word_exists "b".data (some ["b, x".data, "b, z".data])
      = (true, some (0, "b, x".data, false))
    ∧ ∃ nl, (add_translation "b".data ["y".data] "en".data "fr".data
        { FS.empty with enfrStore := some ["b, x".data, "b, z".data] }).2.getStore
          SPath.enfr
      = some (nl :: ["b, z".data]) := by
  have h := C10_first_match_only "b".data "b, x".data ["y".data] "en".data
    "fr".data { FS.empty with enfrStore := some ["b, x".data, "b, z".data] }
    SPath.enfr [] ["b, z".data] (by decide) (by decide) (by decide) (by decide)
  refine ⟨?_, ?_⟩
  · rw [show (["b, x".data, "b, z".data] : List Str)
        = [] ++ "b, x".data :: ["b, z".data] from rfl, h.1]
    decide
  · obtain ⟨nl, hnl⟩ := h.2
    exact ⟨nl, by simpa using hnl⟩

end TransPy
